import Mathlib

/-!
Shallow embedding of the instruction-construction layer of a Dockerfile
parser: the copy-instruction assembler (copy.rs) and the run-instruction
assembler (run.rs), together with the token-tree interface they consume.

The token tree handed over by the tokenizer is modelled by `Pair`: a rule
kind, a byte span, raw text, and an ordered list of children.  The two
assemblers `CopyInstruction.from_record` and `RunInstruction.from_record`
are translated statement by statement from the source; the small helpers
they call that live outside the two translated files (string decoding,
heredoc capture, breakable-expression capture) are modelled from the
specification, as indicated on each definition.
-/

/-- A half-open byte range `[start, end)` over the original source buffer. -/
structure Span where
  start : Nat
  «end» : Nat
deriving DecidableEq, Repr

/-- Construct a span from its two offsets (mirrors `Span::new`). -/
def Span.new (s e : Nat) : Span := ⟨s, e⟩

/-- The span `outer` fully contains the span `inner`. -/
def Span.contains (outer inner : Span) : Prop :=
  outer.start ≤ inner.start ∧ inner.«end» ≤ outer.«end»

instance (a b : Span) : Decidable (Span.contains a b) := by
  unfold Span.contains; infer_instance

/-- Boolean version of `Span.contains`. -/
def Span.containsb (outer inner : Span) : Bool :=
  decide (outer.start ≤ inner.start) && decide (inner.«end» ≤ outer.«end»)

theorem Span.containsb_iff (a b : Span) : a.containsb b = true ↔ a.contains b := by
  simp [Span.containsb, Span.contains]

theorem Span.contains_trans {a b c : Span} (h1 : a.contains b) (h2 : b.contains c) :
    a.contains c := by
  rcases h1 with ⟨h1a, h1b⟩; rcases h2 with ⟨h2a, h2b⟩
  exact ⟨le_trans h1a h2a, le_trans h2b h1b⟩

/-- A decoded string value paired with the raw source extent it came from. -/
structure SpannedString where
  span : Span
  content : String
deriving DecidableEq, Repr

/-- The rule kinds of token-tree nodes that the two assemblers inspect.
`misc n` stands for every other variant of the tokenizer's rule enumeration
(the grammar has many more rules; the assemblers treat all of them alike,
as unexpected). -/
inductive Rule where
  | run
  | run_option
  | run_option_name
  | run_option_value
  | run_exec
  | run_shell
  | run_heredoc
  | any_breakable
  | comment
  | copy
  | copy_standard
  | copy_heredoc
  | copy_flag
  | copy_flag_name
  | copy_flag_value
  | copy_pathspec
  | heredoc_body
  | misc (n : Nat)
deriving DecidableEq, Repr

/-- A token-tree node: rule kind, span, raw text, ordered children.
This models the pest `Pair` interface consumed by the assemblers. -/
inductive Pair where
  | mk (rule : Rule) (span : Span) (text : String) (children : List Pair)

/-- The node's rule kind (mirrors `Pair::as_rule`). -/
def Pair.as_rule : Pair → Rule
  | .mk r _ _ _ => r

/-- The node's span (mirrors `Span::from_pair`). -/
def Pair.span : Pair → Span
  | .mk _ sp _ _ => sp

/-- The node's raw text (mirrors `Pair::as_str`). -/
def Pair.as_str : Pair → String
  | .mk _ _ tx _ => tx

/-- The node's ordered children (mirrors `Pair::into_inner`). -/
def Pair.into_inner : Pair → List Pair
  | .mk _ _ _ cs => cs

/-- A token tree is well formed when every node's span contains the spans of
all its children, recursively.  This is the invariant the tokenizer
guarantees for the trees it hands to the assemblers. -/
inductive Pair.WF : Pair → Prop where
  | mk (r : Rule) (sp : Span) (tx : String) (cs : List Pair)
      (hspan : ∀ c ∈ cs, sp.contains c.span)
      (hrec : ∀ c ∈ cs, Pair.WF c) :
      Pair.WF (.mk r sp tx cs)

theorem Pair.WF.children_contains {p : Pair} (h : p.WF) :
    ∀ c ∈ p.into_inner, p.span.contains c.span := by
  cases h with
  | mk r sp tx cs hspan hrec => exact hspan

theorem Pair.WF.children_wf {p : Pair} (h : p.WF) :
    ∀ c ∈ p.into_inner, Pair.WF c := by
  cases h with
  | mk r sp tx cs hspan hrec => exact hrec

theorem Pair.WF.leaf (r : Rule) (sp : Span) (tx : String) :
    Pair.WF (.mk r sp tx []) :=
  .mk r sp tx [] (by simp) (by simp)

/-- The closed error taxonomy of the parser core.  `UnexpectedToken` names
the offending node in full. -/
inductive Error where
  | GenericParseError (message : String)
  | UnexpectedToken (node : Pair)
  | ConversionError (fromShape : String) (toShape : String)

/-- Modelled from the spec: `unexpected_token` (error.rs, not under src/)
builds an `UnexpectedToken` error that always names the offending node. -/
def unexpected_token (p : Pair) : Error := .UnexpectedToken p

/-- Modelled from the spec: `parse_string` (util.rs, not under src/) decodes
a string token into a `SpannedString` whose span is the raw source extent of
the node.  The decoding of quotes and escapes is external to the claims
settled here, so the model keeps the node's raw text as the content. -/
def parse_string (p : Pair) : Except Error SpannedString :=
  .ok ⟨p.span, p.as_str⟩

/-- A captured heredoc block: its overall span and its raw text, as shown by
the unit tests of run.rs (`Heredoc { span, content }`). -/
structure Heredoc where
  span : Span
  content : String
deriving DecidableEq, Repr

/-- Modelled from the spec: `parse_heredoc` (parser code not under src/)
captures a heredoc node as its span and raw text, per the captured
literal-block contract and the unit tests of run.rs. -/
def parse_heredoc (p : Pair) : Except Error Heredoc :=
  .ok ⟨p.span, p.as_str⟩

/-- One fragment of a breakable string: a literal run or a comment line. -/
inductive BreakableStringComponent where
  | string (s : SpannedString)
  | comment (c : SpannedString)
deriving DecidableEq, Repr

/-- The span of a fragment. -/
def BreakableStringComponent.span : BreakableStringComponent → Span
  | .string s => s.span
  | .comment c => c.span

/-- A breakable shell expression: an enclosing span plus an ordered list of
literal and comment fragments. -/
structure BreakableString where
  span : Span
  components : List BreakableStringComponent
deriving DecidableEq, Repr

/-- Construct an empty breakable string with an enclosing span (mirrors
`BreakableString::new`). -/
def BreakableString.new (sp : Span) : BreakableString := ⟨sp, []⟩

/-- Append a literal fragment (mirrors `BreakableString::add_string`). -/
def BreakableString.add_string (b : BreakableString) (sp : Span) (t : String) :
    BreakableString :=
  ⟨b.span, b.components ++ [.string ⟨sp, t⟩]⟩

/-- Append a comment fragment (mirrors `BreakableString::add_comment`). -/
def BreakableString.add_comment (b : BreakableString) (sp : Span) (t : String) :
    BreakableString :=
  ⟨b.span, b.components ++ [.comment ⟨sp, t⟩]⟩

/-- One step of the breakable-expression walk: append a comment fragment
for a comment child and a literal fragment for any other child. -/
def breakableStep (b : BreakableString) (c : Pair) : BreakableString :=
  match c.as_rule with
  | .comment => b.add_comment c.span c.as_str
  | _ => b.add_string c.span c.as_str

/-- Modelled from the spec: `parse_any_breakable` (parser code not under
src/) builds a `BreakableString` over the node's span by appending one
fragment per child, a comment fragment for comment children and a literal
fragment for the rest, in child order. -/
def parse_any_breakable (p : Pair) : Except Error BreakableString :=
  .ok (p.into_inner.foldl breakableStep (BreakableString.new p.span))

/-- An exec-form argument list: its overall span and its decoded elements. -/
structure StringArray where
  span : Span
  elements : List SpannedString
deriving DecidableEq, Repr

/-- Modelled from the spec: `parse_string_array` (util.rs, not under src/)
decodes an exec-form list into a `StringArray` over the node's span with one
element per child, in child order. -/
def parse_string_array (p : Pair) : Except Error StringArray :=
  .ok ⟨p.span, p.into_inner.map (fun c => ⟨c.span, c.as_str⟩)⟩

/-- A `--key=value` option on a run instruction (mirrors `RunOption`). -/
structure RunOption where
  span : Span
  name : SpannedString
  value : SpannedString
  original : String
deriving DecidableEq, Repr

/-- The body of a run instruction (mirrors `ShellOrExecExpr`). -/
inductive ShellOrExecExpr where
  | Exec (args : StringArray)
  | Shell (b : BreakableString)
  | ShellWithHeredoc (b : BreakableString) (h : Heredoc)
deriving DecidableEq, Repr

/-- A run instruction record (mirrors `RunInstruction`). -/
structure RunInstruction where
  span : Span
  options : List RunOption
  expr : ShellOrExecExpr
deriving DecidableEq, Repr

/-- The field loop of `RunOption::from_record`: fold the option node's
children, recording the last name and value seen, failing on any other
rule kind. -/
def runOptionFields : List Pair → Option SpannedString → Option SpannedString →
    Except Error (Option SpannedString × Option SpannedString)
  | [], name, value => .ok (name, value)
  | field :: rest, name, value =>
    match field.as_rule with
    | .run_option_name =>
      match parse_string field with
      | .ok s => runOptionFields rest (some s) value
      | .error e => .error e
    | .run_option_value =>
      match parse_string field with
      | .ok s => runOptionFields rest name (some s)
      | .error e => .error e
    | _ => .error (unexpected_token field)

/-- Translation of `RunOption::from_record`. -/
def RunOption.from_record (record : Pair) : Except Error RunOption :=
  match runOptionFields record.into_inner none none with
  | .error e => .error e
  | .ok (name?, value?) =>
    match name?, value? with
    | none, _ => .error (.GenericParseError "run options require a key")
    | some _, none => .error (.GenericParseError "run options require a value")
    | some name, some value =>
      .ok ⟨record.span, name, value, record.as_str⟩

/-- The leading-children loop of `RunInstruction::from_record`: collect run
options, skip comments, and stop at the first exec-form or shell-form child
(children after it are never examined); fail on any other rule kind. -/
def runFields : List Pair → List RunOption →
    Except Error (List RunOption × Option Pair)
  | [], options => .ok (options, none)
  | field :: rest, options =>
    match field.as_rule with
    | .run_option =>
      match RunOption.from_record field with
      | .ok o => runFields rest (options ++ [o])
      | .error e => .error e
    | .run_exec => .ok (options, some field)
    | .run_shell => .ok (options, some field)
    | .comment => runFields rest options
    | _ => .error (unexpected_token field)

/-- Translation of `RunInstruction::from_record`. -/
def RunInstruction.from_record (record : Pair) : Except Error RunInstruction :=
  match runFields record.into_inner [] with
  | .error e => .error e
  | .ok (options, expr?) =>
    match expr? with
    | none => .error (.GenericParseError "missing run expression")
    | some field =>
      match field.as_rule with
      | .run_exec =>
        match parse_string_array field with
        | .error e => .error e
        | .ok args => .ok ⟨record.span, options, .Exec args⟩
      | .run_shell =>
        match field.into_inner with
        | [] => .error (.GenericParseError "missing run shell expression")
        | first_field :: field_rest =>
          match first_field.as_rule with
          | .run_heredoc =>
            match parse_heredoc first_field with
            | .error e => .error e
            | .ok heredoc =>
              .ok ⟨record.span, options,
                   .ShellWithHeredoc (BreakableString.new (Span.new 4 4)) heredoc⟩
          | .any_breakable =>
            match parse_any_breakable first_field with
            | .error e => .error e
            | .ok breakable =>
              match field_rest with
              | heredoc_field :: _ =>
                match parse_heredoc heredoc_field with
                | .error e => .error e
                | .ok heredoc =>
                  .ok ⟨record.span, options, .ShellWithHeredoc breakable heredoc⟩
              | [] => .ok ⟨record.span, options, .Shell breakable⟩
          | _ => .error (unexpected_token first_field)
      | _ => .error (unexpected_token field)

/-- A `--key=value` flag on a copy instruction (mirrors `CopyFlag`). -/
structure CopyFlag where
  span : Span
  name : SpannedString
  value : SpannedString
deriving DecidableEq, Repr

/-- A copy source: a path reference or literal heredoc-supplied content
(mirrors `SourceType`). -/
inductive SourceType where
  | FileName (s : SpannedString)
  | FileContents (s : SpannedString)
deriving DecidableEq, Repr

/-- The spanned string carried by a copy source. -/
def SourceType.str : SourceType → SpannedString
  | .FileName s => s
  | .FileContents s => s

/-- A copy instruction record (mirrors `CopyInstruction`). -/
structure CopyInstruction where
  span : Span
  flags : List CopyFlag
  sources : List SourceType
  destination : SpannedString
deriving DecidableEq, Repr

/-- The field loop of `CopyFlag::from_record`: fold the flag node's
children, recording the last name and value seen, failing on any other rule
kind. -/
def copyFlagFields : List Pair → Option SpannedString → Option SpannedString →
    Except Error (Option SpannedString × Option SpannedString)
  | [], name, value => .ok (name, value)
  | field :: rest, name, value =>
    match field.as_rule with
    | .copy_flag_name =>
      match parse_string field with
      | .ok s => copyFlagFields rest (some s) value
      | .error e => .error e
    | .copy_flag_value =>
      match parse_string field with
      | .ok s => copyFlagFields rest name (some s)
      | .error e => .error e
    | _ => .error (unexpected_token field)

/-- Translation of `CopyFlag::from_record`. -/
def CopyFlag.from_record (record : Pair) : Except Error CopyFlag :=
  match copyFlagFields record.into_inner none none with
  | .error e => .error e
  | .ok (name?, value?) =>
    match name?, value? with
    | none, _ => .error (.GenericParseError "copy flags require a key")
    | some _, none => .error (.GenericParseError "copy flags require a value")
    | some name, some value => .ok ⟨record.span, name, value⟩

/-- The child loop of the standard form of `CopyInstruction::from_record`:
accumulate flags and paths, skip comments, fail on any other rule kind. -/
def copyStandardFields : List Pair → List CopyFlag → List SpannedString →
    Except Error (List CopyFlag × List SpannedString)
  | [], flags, paths => .ok (flags, paths)
  | inner :: rest, flags, paths =>
    match inner.as_rule with
    | .copy_flag =>
      match CopyFlag.from_record inner with
      | .ok f => copyStandardFields rest (flags ++ [f]) paths
      | .error e => .error e
    | .copy_pathspec =>
      match parse_string inner with
      | .ok s => copyStandardFields rest flags (paths ++ [s])
      | .error e => .error e
    | .comment => copyStandardFields rest flags paths
    | _ => .error (unexpected_token inner)

/-- The child loop of the heredoc form of `CopyInstruction::from_record`:
accumulate flags and heredoc bodies, overwrite the destination on each
pathspec child, fail on any other rule kind (comments included). -/
def copyHeredocFields : List Pair → List CopyFlag → SpannedString →
    List SpannedString →
    Except Error (List CopyFlag × SpannedString × List SpannedString)
  | [], flags, destination, sources => .ok (flags, destination, sources)
  | inner :: rest, flags, destination, sources =>
    match inner.as_rule with
    | .copy_flag =>
      match CopyFlag.from_record inner with
      | .ok f => copyHeredocFields rest (flags ++ [f]) destination sources
      | .error e => .error e
    | .copy_pathspec =>
      match parse_string inner with
      | .ok s => copyHeredocFields rest flags s sources
      | .error e => .error e
    | .heredoc_body =>
      match parse_string inner with
      | .ok s => copyHeredocFields rest flags destination (sources ++ [s])
      | .error e => .error e
    | _ => .error (unexpected_token inner)

/-- The sentinel destination a copy instruction starts with before any
pathspec child is seen: the empty string over the zero span. -/
def emptyDestination : SpannedString := ⟨Span.new 0 0, ""⟩

/-- Translation of `CopyInstruction::from_record`. -/
def CopyInstruction.from_record (record : Pair) : Except Error CopyInstruction :=
  match record.into_inner with
  | [] => .error (.GenericParseError "Copy instruction expected a field")
  | field :: _ =>
    match field.as_rule with
    | .copy_standard =>
      match copyStandardFields field.into_inner [] [] with
      | .error e => .error e
      | .ok (flags, paths) =>
        if h : 2 ≤ paths.length then
          .ok ⟨record.span, flags, paths.dropLast.map .FileName,
               paths.getLast (List.length_pos.mp (by omega))⟩
        else
          .error (.GenericParseError
            "copy requires at least one source and a destination")
    | .copy_heredoc =>
      match copyHeredocFields field.into_inner [] emptyDestination [] with
      | .error e => .error e
      | .ok (flags, destination, sources) =>
        if 1 ≤ sources.length then
          .ok ⟨record.span, flags, sources.map .FileContents, destination⟩
        else
          .error (.GenericParseError
            "copy requires at least one source and a destination")
    | _ => .error (unexpected_token field)

/-- Modelled from the spec: the generic `Instruction` value produced by the
document driver (dockerfile_parser.rs, not under src/).  Only the copy and
run shapes matter here; `Misc` stands for every other instruction family,
carrying its debug rendering. -/
inductive Instruction where
  | Copy (c : CopyInstruction)
  | Run (r : RunInstruction)
  | Misc (shape : String)
deriving DecidableEq, Repr

/-- Modelled from the spec: the debug rendering of an instruction value used
by `format!` in the conversion errors; it names the instruction's shape. -/
def Instruction.debugStr : Instruction → String
  | .Copy _ => "Copy(..)"
  | .Run _ => "Run(..)"
  | .Misc shape => shape

/-- Translation of `TryFrom<&Instruction> for &CopyInstruction`. -/
def tryIntoCopy (instruction : Instruction) : Except Error CopyInstruction :=
  match instruction with
  | .Copy c => .ok c
  | _ => .error (.ConversionError instruction.debugStr "CopyInstruction")

/-- Translation of `TryFrom<&Instruction> for &RunInstruction`. -/
def tryIntoRun (instruction : Instruction) : Except Error RunInstruction :=
  match instruction with
  | .Run r => .ok r
  | _ => .error (.ConversionError instruction.debugStr "RunInstruction")

/-! ### Laws of the child-walk loops -/

theorem copyStandardFields_append (pre rest : List Pair) (flags : List CopyFlag)
    (paths : List SpannedString) :
    copyStandardFields (pre ++ rest) flags paths =
      match copyStandardFields pre flags paths with
      | .error e => .error e
      | .ok (flags', paths') => copyStandardFields rest flags' paths' := by
  induction pre generalizing flags paths with
  | nil => simp [copyStandardFields]
  | cons c cs ih =>
    simp only [List.cons_append, copyStandardFields]
    cases c.as_rule <;> simp only []
    case copy_flag =>
      cases CopyFlag.from_record c <;> simp [ih]
    case copy_pathspec =>
      cases parse_string c <;> simp [ih]
    case comment => exact ih _ _

theorem copyHeredocFields_append (pre rest : List Pair) (flags : List CopyFlag)
    (destination : SpannedString) (sources : List SpannedString) :
    copyHeredocFields (pre ++ rest) flags destination sources =
      match copyHeredocFields pre flags destination sources with
      | .error e => .error e
      | .ok (flags', destination', sources') =>
          copyHeredocFields rest flags' destination' sources' := by
  induction pre generalizing flags destination sources with
  | nil => simp [copyHeredocFields]
  | cons c cs ih =>
    simp only [List.cons_append, copyHeredocFields]
    cases c.as_rule <;> simp only []
    case copy_flag =>
      cases CopyFlag.from_record c <;> simp [ih]
    case copy_pathspec =>
      cases parse_string c <;> simp [ih]
    case heredoc_body =>
      cases parse_string c <;> simp [ih]

theorem runFields_append (pre rest : List Pair) (options : List RunOption) :
    runFields (pre ++ rest) options =
      match runFields pre options with
      | .error e => .error e
      | .ok (options', some f) => .ok (options', some f)
      | .ok (options', none) => runFields rest options' := by
  induction pre generalizing options with
  | nil => simp [runFields]
  | cons c cs ih =>
    simp only [List.cons_append, runFields]
    cases c.as_rule <;> simp only []
    case run_option =>
      cases RunOption.from_record c <;> simp [ih]
    case comment => exact ih _

theorem copyFlag_span_of_from_record {c : Pair} {f : CopyFlag}
    (h : CopyFlag.from_record c = .ok f) : f.span = c.span := by
  unfold CopyFlag.from_record at h
  split at h
  · exact absurd h (by simp)
  · split at h <;> simp_all
    rw [← h]

theorem runOption_span_of_from_record {c : Pair} {o : RunOption}
    (h : RunOption.from_record c = .ok o) : o.span = c.span := by
  unfold RunOption.from_record at h
  split at h
  · exact absurd h (by simp)
  · split at h <;> simp_all
    rw [← h]

theorem copyStandardFields_unexpected {bad : Pair} (h1 : bad.as_rule ≠ .copy_flag)
    (h2 : bad.as_rule ≠ .copy_pathspec) (h3 : bad.as_rule ≠ .comment)
    (post : List Pair) (flags : List CopyFlag) (paths : List SpannedString) :
    copyStandardFields (bad :: post) flags paths = .error (unexpected_token bad) := by
  rcases bad with ⟨r, sp, tx, cs⟩
  cases r <;> simp_all [copyStandardFields, Pair.as_rule]

theorem copyHeredocFields_unexpected {bad : Pair} (h1 : bad.as_rule ≠ .copy_flag)
    (h2 : bad.as_rule ≠ .copy_pathspec) (h3 : bad.as_rule ≠ .heredoc_body)
    (post : List Pair) (flags : List CopyFlag) (destination : SpannedString)
    (sources : List SpannedString) :
    copyHeredocFields (bad :: post) flags destination sources =
      .error (unexpected_token bad) := by
  rcases bad with ⟨r, sp, tx, cs⟩
  cases r <;> simp_all [copyHeredocFields, Pair.as_rule]

theorem runFields_unexpected {bad : Pair} (h1 : bad.as_rule ≠ .run_option)
    (h2 : bad.as_rule ≠ .run_exec) (h3 : bad.as_rule ≠ .run_shell)
    (h4 : bad.as_rule ≠ .comment) (post : List Pair) (options : List RunOption) :
    runFields (bad :: post) options = .error (unexpected_token bad) := by
  rcases bad with ⟨r, sp, tx, cs⟩
  cases r <;> simp_all [runFields, Pair.as_rule]

/-- A child the standard-form copy walk consumes without failing. -/
def CleanStdChild (c : Pair) : Prop :=
  c.as_rule = .comment ∨ c.as_rule = .copy_pathspec ∨
    (c.as_rule = .copy_flag ∧ ∃ f, CopyFlag.from_record c = .ok f)

/-- A child the heredoc-form copy walk consumes without failing. -/
def CleanHdChild (c : Pair) : Prop :=
  c.as_rule = .heredoc_body ∨ c.as_rule = .copy_pathspec ∨
    (c.as_rule = .copy_flag ∧ ∃ f, CopyFlag.from_record c = .ok f)

/-- A child the run option walk consumes without failing and without
stopping (an ignorable comment or a well-formed run option). -/
def CleanRunChild (c : Pair) : Prop :=
  c.as_rule = .comment ∨
    (c.as_rule = .run_option ∧ ∃ o, RunOption.from_record c = .ok o)

theorem copyStandardFields_clean {pre : List Pair}
    (h : ∀ c ∈ pre, CleanStdChild c) (flags : List CopyFlag)
    (paths : List SpannedString) :
    ∃ flags' paths', copyStandardFields pre flags paths = .ok (flags', paths') := by
  induction pre generalizing flags paths with
  | nil => exact ⟨flags, paths, rfl⟩
  | cons c cs ih =>
    have hc := h c (by simp)
    have hcs : ∀ x ∈ cs, CleanStdChild x := fun x hx => h x (by simp [hx])
    rcases hc with hc | hc | ⟨hc, f, hf⟩
    · rw [copyStandardFields, hc]
      exact ih hcs flags paths
    · rw [copyStandardFields, hc, parse_string]
      exact ih hcs flags (paths ++ [⟨c.span, c.as_str⟩])
    · rw [copyStandardFields, hc, hf]
      exact ih hcs (flags ++ [f]) paths

theorem copyHeredocFields_clean {pre : List Pair}
    (h : ∀ c ∈ pre, CleanHdChild c) (flags : List CopyFlag)
    (destination : SpannedString) (sources : List SpannedString) :
    ∃ flags' destination' sources',
      copyHeredocFields pre flags destination sources =
        .ok (flags', destination', sources') ∧
      sources'.length =
        sources.length + pre.countP (fun c => c.as_rule == .heredoc_body) ∧
      ((∀ c ∈ pre, c.as_rule ≠ .copy_pathspec) → destination' = destination) := by
  induction pre generalizing flags destination sources with
  | nil => exact ⟨flags, destination, sources, rfl, by simp, fun _ => rfl⟩
  | cons c cs ih =>
    have hc := h c (by simp)
    have hcs : ∀ x ∈ cs, CleanHdChild x := fun x hx => h x (by simp [hx])
    rcases hc with hc | hc | ⟨hc, f, hf⟩
    · rw [copyHeredocFields, hc, parse_string]
      obtain ⟨f', d', s', hok, hlen, hdest⟩ :=
        ih hcs flags destination (sources ++ [⟨c.span, c.as_str⟩])
      refine ⟨f', d', s', hok, ?_, ?_⟩
      · simp [hlen, List.countP_cons, hc]
        omega
      · intro hnp
        exact hdest fun x hx => hnp x (by simp [hx])
    · rw [copyHeredocFields, hc, parse_string]
      obtain ⟨f', d', s', hok, hlen, hdest⟩ :=
        ih hcs flags ⟨c.span, c.as_str⟩ sources
      refine ⟨f', d', s', hok, ?_, ?_⟩
      · simp [hlen, List.countP_cons, hc]
      · intro hnp
        exact absurd hc (hnp c (by simp))
    · rw [copyHeredocFields, hc, hf]
      obtain ⟨f', d', s', hok, hlen, hdest⟩ :=
        ih hcs (flags ++ [f]) destination sources
      refine ⟨f', d', s', hok, ?_, ?_⟩
      · simp [hlen, List.countP_cons, hc]
      · intro hnp
        exact hdest fun x hx => hnp x (by simp [hx])

theorem runFields_clean {pre : List Pair}
    (h : ∀ c ∈ pre, CleanRunChild c) (options : List RunOption) :
    ∃ options', runFields pre options = .ok (options', none) := by
  induction pre generalizing options with
  | nil => exact ⟨options, rfl⟩
  | cons c cs ih =>
    have hc := h c (by simp)
    have hcs : ∀ x ∈ cs, CleanRunChild x := fun x hx => h x (by simp [hx])
    rcases hc with hc | ⟨hc, o, ho⟩
    · rw [runFields, hc]
      exact ih hcs options
    · rw [runFields, hc, ho]
      exact ih hcs (options ++ [o])

/-! ### Claim theorems -/

/-- C2: for a copy-family record in standard form whose child walk
accumulates `flags` and `paths`, assembly fails with the message
"copy requires at least one source and a destination" when fewer than two
paths were accumulated, and otherwise succeeds with the last path as the
destination and every earlier path as a `FileName` source in original
source order. -/
theorem copy_standard_arity_and_order (sp sp2 : Span) (tx tx2 : String)
    (children : List Pair) (flags : List CopyFlag) (paths : List SpannedString)
    (hwalk : copyStandardFields children [] [] = .ok (flags, paths)) :
    (paths.length < 2 →
      CopyInstruction.from_record
          (.mk .copy sp tx [.mk .copy_standard sp2 tx2 children]) =
        .error (.GenericParseError
          "copy requires at least one source and a destination")) ∧
    (∀ srcs d, paths = srcs ++ [d] → srcs ≠ [] →
      CopyInstruction.from_record
          (.mk .copy sp tx [.mk .copy_standard sp2 tx2 children]) =
        .ok ⟨sp, flags, srcs.map .FileName, d⟩) := by
  constructor
  · intro hlt
    simp only [CopyInstruction.from_record, Pair.into_inner, Pair.as_rule, Pair.span]
    rw [hwalk]
    simp only []
    rw [dif_neg (by omega)]
  · intro srcs d hpaths hne
    subst hpaths
    simp only [CopyInstruction.from_record, Pair.into_inner, Pair.as_rule, Pair.span]
    rw [hwalk]
    simp only []
    rw [dif_pos (by
      have := List.length_pos.mpr hne
      simp [List.length_append]
      omega)]
    simp

def recCopyBasic : Pair :=
  .mk .copy (Span.new 0 12) "copy foo bar"
    [.mk .copy_standard (Span.new 5 12) "foo bar"
      [.mk .copy_pathspec (Span.new 5 8) "foo" [],
       .mk .copy_pathspec (Span.new 9 12) "bar" []]]

def recCopyOnePath : Pair :=
  .mk .copy (Span.new 0 8) "copy foo"
    [.mk .copy_standard (Span.new 5 8) "foo"
      [.mk .copy_pathspec (Span.new 5 8) "foo" []]]

/-- Witness for C2: `copy foo bar` assembles with source `foo` and
destination `bar`; `copy foo` fails with the arity error. -/
theorem copy_standard_arity_and_order_witness :
    CopyInstruction.from_record recCopyBasic =
      .ok ⟨Span.new 0 12, [], [.FileName ⟨Span.new 5 8, "foo"⟩],
           ⟨Span.new 9 12, "bar"⟩⟩ ∧
    CopyInstruction.from_record recCopyOnePath =
      .error (.GenericParseError
        "copy requires at least one source and a destination") := by
  constructor
  · exact (copy_standard_arity_and_order (Span.new 0 12) (Span.new 5 12)
      "copy foo bar" "foo bar"
      [.mk .copy_pathspec (Span.new 5 8) "foo" [],
       .mk .copy_pathspec (Span.new 9 12) "bar" []]
      [] [⟨Span.new 5 8, "foo"⟩, ⟨Span.new 9 12, "bar"⟩]
      rfl).2 [⟨Span.new 5 8, "foo"⟩] ⟨Span.new 9 12, "bar"⟩ rfl (by simp)
  · exact (copy_standard_arity_and_order (Span.new 0 8) (Span.new 5 8)
      "copy foo" "foo" [.mk .copy_pathspec (Span.new 5 8) "foo" []]
      [] [⟨Span.new 5 8, "foo"⟩] rfl).1 (by simp)

/-- C3: for a copy-family record in heredoc form whose child walk resolves
`flags`, a destination and the heredoc bodies `srcs`, assembly fails with
the same message as the standard form when no body was resolved, and
otherwise succeeds with one `FileContents` source per body in walk order. -/
theorem copy_heredoc_arity_and_sources (sp sp2 : Span) (tx tx2 : String)
    (children : List Pair) (flags : List CopyFlag) (destination : SpannedString)
    (srcs : List SpannedString)
    (hwalk : copyHeredocFields children [] emptyDestination [] =
      .ok (flags, destination, srcs)) :
    (srcs = [] →
      CopyInstruction.from_record
          (.mk .copy sp tx [.mk .copy_heredoc sp2 tx2 children]) =
        .error (.GenericParseError
          "copy requires at least one source and a destination")) ∧
    (srcs ≠ [] →
      CopyInstruction.from_record
          (.mk .copy sp tx [.mk .copy_heredoc sp2 tx2 children]) =
        .ok ⟨sp, flags, srcs.map .FileContents, destination⟩) := by
  constructor
  · intro hnil
    subst hnil
    simp only [CopyInstruction.from_record, Pair.into_inner, Pair.as_rule, Pair.span]
    rw [hwalk]
    simp
  · intro hne
    simp only [CopyInstruction.from_record, Pair.into_inner, Pair.as_rule, Pair.span]
    rw [hwalk]
    simp only []
    rw [if_pos (by
      have := List.length_pos.mpr hne
      omega)]

def recCopyHeredoc : Pair :=
  .mk .copy (Span.new 0 34) "COPY <<EOF /tmp/test.txt\nhello\nEOF"
    [.mk .copy_heredoc (Span.new 5 31) "<<EOF /tmp/test.txt\nhello\n"
      [.mk .copy_pathspec (Span.new 11 24) "/tmp/test.txt" [],
       .mk .heredoc_body (Span.new 25 31) "hello\n" []]]

def recCopyHeredocNoBody : Pair :=
  .mk .copy (Span.new 0 24) "COPY <<EOF /tmp/test.txt"
    [.mk .copy_heredoc (Span.new 5 24) "<<EOF /tmp/test.txt"
      [.mk .copy_pathspec (Span.new 11 24) "/tmp/test.txt" []]]

/-- Witness for C3: a heredoc copy with one body assembles it as a
`FileContents` source; one with no body fails with the arity error. -/
theorem copy_heredoc_arity_and_sources_witness :
    CopyInstruction.from_record recCopyHeredoc =
      .ok ⟨Span.new 0 34, [], [.FileContents ⟨Span.new 25 31, "hello\n"⟩],
           ⟨Span.new 11 24, "/tmp/test.txt"⟩⟩ ∧
    CopyInstruction.from_record recCopyHeredocNoBody =
      .error (.GenericParseError
        "copy requires at least one source and a destination") := by
  constructor
  · exact (copy_heredoc_arity_and_sources (Span.new 0 34) (Span.new 5 31)
      "COPY <<EOF /tmp/test.txt\nhello\nEOF" "<<EOF /tmp/test.txt\nhello\n"
      [.mk .copy_pathspec (Span.new 11 24) "/tmp/test.txt" [],
       .mk .heredoc_body (Span.new 25 31) "hello\n" []]
      [] ⟨Span.new 11 24, "/tmp/test.txt"⟩ [⟨Span.new 25 31, "hello\n"⟩]
      rfl).2 (by simp)
  · exact (copy_heredoc_arity_and_sources (Span.new 0 24) (Span.new 5 24)
      "COPY <<EOF /tmp/test.txt" "<<EOF /tmp/test.txt"
      [.mk .copy_pathspec (Span.new 11 24) "/tmp/test.txt" []]
      [] ⟨Span.new 11 24, "/tmp/test.txt"⟩ [] rfl).1 rfl

/-- C9: a heredoc-form copy record whose children are clean, contain at
least one heredoc body and contain no destination-path child assembles
successfully, and the resulting destination is the empty string over the
zero-width span starting at offset 0. -/
theorem copy_heredoc_missing_destination (sp sp2 : Span) (tx tx2 : String)
    (children : List Pair)
    (hclean : ∀ c ∈ children, CleanHdChild c)
    (hnopath : ∀ c ∈ children, c.as_rule ≠ .copy_pathspec)
    (hbody : ∃ c ∈ children, c.as_rule = .heredoc_body) :
    ∃ ci, CopyInstruction.from_record
        (.mk .copy sp tx [.mk .copy_heredoc sp2 tx2 children]) = .ok ci ∧
      ci.destination = ⟨Span.new 0 0, ""⟩ := by
  obtain ⟨flags', d', srcs', hok, hlen, hdest⟩ :=
    copyHeredocFields_clean hclean [] emptyDestination []
  have hd : d' = emptyDestination := hdest hnopath
  have hpos : 0 < srcs'.length := by
    rcases hbody with ⟨c, hc, hcr⟩
    have hcount : 0 < children.countP (fun c => c.as_rule == .heredoc_body) :=
      List.countP_pos_iff.mpr ⟨c, hc, by simp [hcr]⟩
    omega
  refine ⟨⟨sp, flags', srcs'.map .FileContents, d'⟩, ?_, by
    simp [hd, emptyDestination]⟩
  simp only [CopyInstruction.from_record, Pair.into_inner, Pair.as_rule, Pair.span]
  rw [hok]
  simp only []
  rw [if_pos (by omega)]

def recCopyHeredocNoDest : Pair :=
  .mk .copy (Span.new 12 40) "COPY <<EOF\nhello\nEOF"
    [.mk .copy_heredoc (Span.new 17 40) "<<EOF\nhello\nEOF"
      [.mk .heredoc_body (Span.new 23 29) "hello\n" []]]

/-- Witness for C9: a heredoc-form copy record with one body and no
pathspec child assembles with the sentinel destination. -/
theorem copy_heredoc_missing_destination_witness :
    ∃ ci, CopyInstruction.from_record recCopyHeredocNoDest = .ok ci ∧
      ci.destination = ⟨Span.new 0 0, ""⟩ := by
  exact copy_heredoc_missing_destination (Span.new 12 40) (Span.new 17 40)
    "COPY <<EOF\nhello\nEOF" "<<EOF\nhello\nEOF"
    [.mk .heredoc_body (Span.new 23 29) "hello\n" []]
    (by intro c hc; simp at hc; subst hc; exact Or.inl rfl)
    (by intro c hc; simp at hc; subst hc; simp [Pair.as_rule])
    ⟨.mk .heredoc_body (Span.new 23 29) "hello\n" [], by simp, rfl⟩

def recRunBareHeredoc : Pair :=
  .mk .run (Span.new 12 44) "RUN <<EOF\nhello\nEOF"
    [.mk .run_shell (Span.new 16 44) "<<EOF\nhello\nEOF"
      [.mk .run_heredoc (Span.new 16 44) "<<EOF\nhello\nEOF" []]]

/-- C1: evaluation of the code at a failing input.  A well-formed
run-family record for a bare-heredoc shell body starting at offset 16
(the instruction being the second one in its file) assembles to a
`ShellWithHeredoc` whose empty `BreakableString` covers the hardcoded span
`(4, 4)`, which is not the zero-width span at the heredoc's start. -/
theorem run_bare_heredoc_span_hardcoded :
    Pair.WF recRunBareHeredoc ∧
    RunInstruction.from_record recRunBareHeredoc =
      .ok ⟨Span.new 12 44, [],
        .ShellWithHeredoc (BreakableString.new (Span.new 4 4))
          ⟨Span.new 16 44, "<<EOF\nhello\nEOF"⟩⟩ ∧
    (BreakableString.new (Span.new 4 4)).span ≠ Span.new 16 16 := by
  refine ⟨?_, rfl, by decide⟩
  refine Pair.WF.mk _ _ _ _ (by decide) ?_
  intro c hc
  simp only [List.mem_singleton] at hc
  subst hc
  refine Pair.WF.mk _ _ _ _ (by decide) ?_
  intro c hc
  simp only [List.mem_singleton] at hc
  subst hc
  exact Pair.WF.leaf _ _ _

/-- C6: in a copy-family record, the first child whose rule kind the
assembler does not expect fails assembly with an `UnexpectedToken` error
naming that node; comment children are silently skipped in the standard
form but are themselves unexpected tokens in the heredoc form. -/
theorem copy_unexpected_tokens (sp sp2 : Span) (tx tx2 : String)
    (pre post : List Pair) (bad : Pair) :
    ((∀ c ∈ pre, CleanStdChild c) →
      bad.as_rule ≠ .copy_flag → bad.as_rule ≠ .copy_pathspec →
      bad.as_rule ≠ .comment →
      CopyInstruction.from_record
          (.mk .copy sp tx [.mk .copy_standard sp2 tx2 (pre ++ bad :: post)]) =
        .error (unexpected_token bad)) ∧
    (bad.as_rule = .comment →
      CopyInstruction.from_record
          (.mk .copy sp tx [.mk .copy_standard sp2 tx2 (pre ++ bad :: post)]) =
        CopyInstruction.from_record
          (.mk .copy sp tx [.mk .copy_standard sp2 tx2 (pre ++ post)])) ∧
    ((∀ c ∈ pre, CleanHdChild c) →
      bad.as_rule ≠ .copy_flag → bad.as_rule ≠ .copy_pathspec →
      bad.as_rule ≠ .heredoc_body →
      CopyInstruction.from_record
          (.mk .copy sp tx [.mk .copy_heredoc sp2 tx2 (pre ++ bad :: post)]) =
        .error (unexpected_token bad)) := by
  refine ⟨?_, ?_, ?_⟩
  · intro hclean h1 h2 h3
    obtain ⟨f', p', hok⟩ := copyStandardFields_clean hclean [] []
    simp only [CopyInstruction.from_record, Pair.into_inner, Pair.as_rule]
    rw [copyStandardFields_append, hok]
    simp only []
    rw [copyStandardFields_unexpected h1 h2 h3]
  · intro hcmt
    simp only [CopyInstruction.from_record, Pair.into_inner, Pair.as_rule]
    rw [copyStandardFields_append, copyStandardFields_append]
    cases hw : copyStandardFields pre [] [] with
    | error e => rfl
    | ok fp =>
      obtain ⟨f', p'⟩ := fp
      simp only []
      rw [copyStandardFields, hcmt]
      rfl
  · intro hclean h1 h2 h3
    obtain ⟨f', d', s', hok, hlen, hdest⟩ :=
      copyHeredocFields_clean hclean [] emptyDestination []
    simp only [CopyInstruction.from_record, Pair.into_inner, Pair.as_rule]
    rw [copyHeredocFields_append, hok]
    simp only []
    rw [copyHeredocFields_unexpected h1 h2 h3]

/-- Witness for C6: a junk child after a path fails the standard form with
an error naming the junk node; a comment child is skipped by the standard
form; a comment child fails the heredoc form with an error naming it. -/
theorem copy_unexpected_tokens_witness :
    CopyInstruction.from_record (.mk .copy (Span.new 0 12) "copy foo ???"
        [.mk .copy_standard (Span.new 5 12) "foo ???"
          [.mk .copy_pathspec (Span.new 5 8) "foo" [],
           .mk (.misc 7) (Span.new 9 12) "???" []]]) =
      .error (unexpected_token (.mk (.misc 7) (Span.new 9 12) "???" [])) ∧
    CopyInstruction.from_record (.mk .copy (Span.new 0 24) "copy foo # hello bar"
        [.mk .copy_standard (Span.new 5 24) "foo # hello bar"
          [.mk .copy_pathspec (Span.new 5 8) "foo" [],
           .mk .comment (Span.new 9 16) "# hello" [],
           .mk .copy_pathspec (Span.new 17 20) "bar" []]]) =
      CopyInstruction.from_record (.mk .copy (Span.new 0 24) "copy foo # hello bar"
        [.mk .copy_standard (Span.new 5 24) "foo # hello bar"
          [.mk .copy_pathspec (Span.new 5 8) "foo" [],
           .mk .copy_pathspec (Span.new 17 20) "bar" []]]) ∧
    CopyInstruction.from_record (.mk .copy (Span.new 0 30) "copy # hello"
        [.mk .copy_heredoc (Span.new 5 30) "# hello"
          [.mk .comment (Span.new 5 12) "# hello" [],
           .mk .heredoc_body (Span.new 20 26) "hello\n" []]]) =
      .error (unexpected_token (.mk .comment (Span.new 5 12) "# hello" [])) := by
  refine ⟨?_, ?_, ?_⟩
  · exact (copy_unexpected_tokens (Span.new 0 12) (Span.new 5 12)
      "copy foo ???" "foo ???"
      [.mk .copy_pathspec (Span.new 5 8) "foo" []] []
      (.mk (.misc 7) (Span.new 9 12) "???" [])).1
      (by intro c hc; simp at hc; subst hc; exact Or.inr (Or.inl rfl))
      (by decide) (by decide) (by decide)
  · exact (copy_unexpected_tokens (Span.new 0 24) (Span.new 5 24)
      "copy foo # hello bar" "foo # hello bar"
      [.mk .copy_pathspec (Span.new 5 8) "foo" []]
      [.mk .copy_pathspec (Span.new 17 20) "bar" []]
      (.mk .comment (Span.new 9 16) "# hello" [])).2.1 rfl
  · exact (copy_unexpected_tokens (Span.new 0 30) (Span.new 5 30)
      "copy # hello" "# hello"
      [] [.mk .heredoc_body (Span.new 20 26) "hello\n" []]
      (.mk .comment (Span.new 5 12) "# hello" [])).2.2
      (by intro c hc; simp at hc)
      (by decide) (by decide) (by decide)

/-- C7: a run-family record whose children are all clean options or
comments (so no exec-form or shell-form body child is present) fails with
the message "missing run expression"; as soon as a body child is present
after a clean prefix, assembly never produces that error, whatever the
body looks like. -/
theorem run_missing_expression (sp : Span) (tx : String)
    (children pre rest : List Pair) (body : Pair) :
    ((∀ c ∈ children, CleanRunChild c) →
      RunInstruction.from_record (.mk .run sp tx children) =
        .error (.GenericParseError "missing run expression")) ∧
    ((∀ c ∈ pre, CleanRunChild c) →
      (body.as_rule = .run_exec ∨ body.as_rule = .run_shell) →
      RunInstruction.from_record (.mk .run sp tx (pre ++ body :: rest)) ≠
        .error (.GenericParseError "missing run expression")) := by
  constructor
  · intro hclean
    obtain ⟨opts', hok⟩ := runFields_clean hclean []
    simp only [RunInstruction.from_record, Pair.into_inner]
    rw [hok]
  · intro hclean hbody
    obtain ⟨opts', hok⟩ := runFields_clean hclean []
    rcases body with ⟨br, bsp, btx, bcs⟩
    simp only [Pair.as_rule] at hbody
    simp only [RunInstruction.from_record, Pair.into_inner, Pair.span]
    rw [runFields_append, hok]
    simp only []
    rw [runFields]
    rcases hbody with h | h <;> subst h <;> simp only [Pair.as_rule]
    · simp [parse_string_array]
    · cases bcs with
      | nil => simp
      | cons first rest2 =>
        simp only [Pair.into_inner]
        rcases first with ⟨fr, fsp, ftx, fcs⟩
        cases fr <;>
          simp [Pair.as_rule, parse_heredoc, parse_any_breakable, unexpected_token]
        · cases rest2 <;> simp [parse_heredoc]

/-- Witness for C7: a run record with only an option child fails with
"missing run expression"; one with a present but empty shell body does not
produce that error (it fails with "missing run shell expression"). -/
theorem run_missing_expression_witness :
    RunInstruction.from_record (.mk .run (Span.new 0 18) "run --network=host"
        [.mk .run_option (Span.new 4 18) "--network=host"
          [.mk .run_option_name (Span.new 6 13) "network" [],
           .mk .run_option_value (Span.new 14 18) "host" []]]) =
      .error (.GenericParseError "missing run expression") ∧
    RunInstruction.from_record (.mk .run (Span.new 0 4) "run "
        [.mk .run_shell (Span.new 4 4) "" []]) ≠
      .error (.GenericParseError "missing run expression") := by
  constructor
  · exact (run_missing_expression (Span.new 0 18) "run --network=host"
      [.mk .run_option (Span.new 4 18) "--network=host"
        [.mk .run_option_name (Span.new 6 13) "network" [],
         .mk .run_option_value (Span.new 14 18) "host" []]]
      [] [] (.mk (.misc 0) (Span.new 0 0) "" [])).1
      (by
        intro c hc
        simp at hc
        subst hc
        exact Or.inr ⟨rfl,
          ⟨Span.new 4 18, ⟨Span.new 6 13, "network"⟩, ⟨Span.new 14 18, "host"⟩,
           "--network=host"⟩, rfl⟩)
  · exact (run_missing_expression (Span.new 0 4) "run " [] [] []
      (.mk .run_shell (Span.new 4 4) "" [])).2
      (by intro c hc; simp at hc) (Or.inr rfl)

/-- C10: children occurring after the first exec-form or shell-form body
child of a run-family record are never examined: the assembled result is
the same for any two tails following the body child, so trailing nodes of
any rule kind never affect the result or raise an error. -/
theorem run_trailing_children_ignored (sp : Span) (tx : String)
    (pre t1 t2 : List Pair) (body : Pair)
    (hbody : body.as_rule = .run_exec ∨ body.as_rule = .run_shell) :
    RunInstruction.from_record (.mk .run sp tx (pre ++ body :: t1)) =
      RunInstruction.from_record (.mk .run sp tx (pre ++ body :: t2)) := by
  simp only [RunInstruction.from_record, Pair.into_inner, Pair.span]
  rw [runFields_append, runFields_append]
  cases hw : runFields pre [] with
  | error e => rfl
  | ok p =>
    obtain ⟨opts, f?⟩ := p
    cases f? with
    | some f => rfl
    | none =>
      simp only []
      rw [runFields, runFields]
      rcases hbody with h | h <;> rw [h]

/-- Witness for C10: appending a junk node after an exec-form body child
leaves the assembled run instruction unchanged. -/
theorem run_trailing_children_ignored_witness :
    RunInstruction.from_record (.mk .run (Span.new 0 10) "run [ls] x"
        [.mk .run_exec (Span.new 4 8) "[ls]" [.mk (.misc 1) (Span.new 5 7) "ls" []],
         .mk (.misc 9) (Span.new 9 10) "x" []]) =
      RunInstruction.from_record (.mk .run (Span.new 0 10) "run [ls] x"
        [.mk .run_exec (Span.new 4 8) "[ls]" [.mk (.misc 1) (Span.new 5 7) "ls" []]]) :=
  run_trailing_children_ignored (Span.new 0 10) "run [ls] x" []
    [.mk (.misc 9) (Span.new 9 10) "x" []] []
    (.mk .run_exec (Span.new 4 8) "[ls]" [.mk (.misc 1) (Span.new 5 7) "ls" []])
    (Or.inl rfl)

/-- C5: for a run-family record whose shell-form body starts with a
breakable literal/comment sequence, assembly yields
`ShellWithHeredoc(breakable, heredoc)` exactly when a heredoc child follows
the breakable sequence, and `Shell(breakable)` when nothing follows. -/
theorem run_shell_breakable_shapes (sp fsp : Span) (tx ftx : String)
    (pre rest : List Pair) (opts : List RunOption) (first : Pair)
    (b : BreakableString)
    (hpre : runFields pre [] = .ok (opts, none))
    (hfirst : first.as_rule = .any_breakable)
    (hb : parse_any_breakable first = .ok b) :
    (rest = [] →
      RunInstruction.from_record
          (.mk .run sp tx (pre ++ [.mk .run_shell fsp ftx (first :: rest)])) =
        .ok ⟨sp, opts, .Shell b⟩) ∧
    (∀ hdp t hd, rest = hdp :: t → parse_heredoc hdp = .ok hd →
      RunInstruction.from_record
          (.mk .run sp tx (pre ++ [.mk .run_shell fsp ftx (first :: rest)])) =
        .ok ⟨sp, opts, .ShellWithHeredoc b hd⟩) := by
  obtain ⟨fr, fsp2, ftx2, fcs⟩ := first
  simp only [Pair.as_rule] at hfirst
  subst hfirst
  constructor
  · intro hnil
    subst hnil
    simp only [RunInstruction.from_record, Pair.into_inner, Pair.span]
    rw [runFields_append, hpre]
    simp only []
    rw [runFields]
    simp only [Pair.as_rule, Pair.into_inner]
    rw [hb]
  · intro hdp t hd hrest hph
    subst hrest
    simp only [RunInstruction.from_record, Pair.into_inner, Pair.span]
    rw [runFields_append, hpre]
    simp only []
    rw [runFields]
    simp only [Pair.as_rule, Pair.into_inner]
    rw [hb, hph]

/-- Witness for C5: a shell body `echo hello` with no following heredoc
assembles to `Shell`; a shell body `python3 ` followed by a heredoc child
assembles to `ShellWithHeredoc` with that heredoc. -/
theorem run_shell_breakable_shapes_witness :
    RunInstruction.from_record (.mk .run (Span.new 0 14) "run echo hello"
        [.mk .run_shell (Span.new 4 14) "echo hello"
          [.mk .any_breakable (Span.new 4 14) "echo hello"
            [.mk (.misc 1) (Span.new 4 14) "echo hello" []]]]) =
      .ok ⟨Span.new 0 14, [],
        .Shell ⟨Span.new 4 14, [.string ⟨Span.new 4 14, "echo hello"⟩]⟩⟩ ∧
    RunInstruction.from_record (.mk .run (Span.new 0 40) "RUN python3 <<EOF"
        [.mk .run_shell (Span.new 4 40) "python3 <<EOF"
          [.mk .any_breakable (Span.new 4 12) "python3 "
            [.mk (.misc 1) (Span.new 4 12) "python3 " []],
           .mk .run_heredoc (Span.new 12 40) "<<EOF\nhi\nEOF" []]]) =
      .ok ⟨Span.new 0 40, [],
        .ShellWithHeredoc ⟨Span.new 4 12, [.string ⟨Span.new 4 12, "python3 "⟩]⟩
          ⟨Span.new 12 40, "<<EOF\nhi\nEOF"⟩⟩ := by
  constructor
  · exact (run_shell_breakable_shapes (Span.new 0 14) (Span.new 4 14)
      "run echo hello" "echo hello" [] [] []
      (.mk .any_breakable (Span.new 4 14) "echo hello"
        [.mk (.misc 1) (Span.new 4 14) "echo hello" []])
      ⟨Span.new 4 14, [.string ⟨Span.new 4 14, "echo hello"⟩]⟩
      rfl rfl rfl).1 rfl
  · exact (run_shell_breakable_shapes (Span.new 0 40) (Span.new 4 40)
      "RUN python3 <<EOF" "python3 <<EOF" []
      [.mk .run_heredoc (Span.new 12 40) "<<EOF\nhi\nEOF" []] []
      (.mk .any_breakable (Span.new 4 12) "python3 "
        [.mk (.misc 1) (Span.new 4 12) "python3 " []])
      ⟨Span.new 4 12, [.string ⟨Span.new 4 12, "python3 "⟩]⟩
      rfl rfl rfl).2
      (.mk .run_heredoc (Span.new 12 40) "<<EOF\nhi\nEOF" []) []
      ⟨Span.new 12 40, "<<EOF\nhi\nEOF"⟩ rfl rfl

/-- C8: narrowing a generic instruction value to a family record is total:
it succeeds with the unchanged record exactly on the matching family and
otherwise fails with a `ConversionError` naming the source shape and the
requested target record type. -/
theorem narrowing_total (i : Instruction) :
    (∀ c, i = .Copy c → tryIntoCopy i = .ok c) ∧
    ((∀ c, i ≠ .Copy c) →
      tryIntoCopy i = .error (.ConversionError i.debugStr "CopyInstruction")) ∧
    (∀ r, i = .Run r → tryIntoRun i = .ok r) ∧
    ((∀ r, i ≠ .Run r) →
      tryIntoRun i = .error (.ConversionError i.debugStr "RunInstruction")) := by
  cases i with
  | Copy c =>
    refine ⟨?_, ?_, ?_, ?_⟩
    · intro c2 h; cases h; rfl
    · intro h; exact absurd rfl (h c)
    · intro r h; cases h
    · intro h; rfl
  | Run r =>
    refine ⟨?_, ?_, ?_, ?_⟩
    · intro c h; cases h
    · intro h; rfl
    · intro r2 h; cases h; rfl
    · intro h; exact absurd rfl (h r)
  | Misc s =>
    refine ⟨?_, ?_, ?_, ?_⟩
    · intro c h; cases h
    · intro h; rfl
    · intro r h; cases h
    · intro h; rfl

def exRunInstr : RunInstruction :=
  ⟨Span.new 0 10, [], .Shell (BreakableString.new (Span.new 4 10))⟩

/-- Witness for C8: narrowing a run instruction to the copy view fails
naming both shapes; narrowing it to the run view returns it unchanged. -/
theorem narrowing_total_witness :
    tryIntoCopy (.Run exRunInstr) =
      .error (.ConversionError "Run(..)" "CopyInstruction") ∧
    tryIntoRun (.Run exRunInstr) = .ok exRunInstr := by
  constructor
  · exact (narrowing_total (.Run exRunInstr)).2.1
      (fun c h => Instruction.noConfusion h)
  · exact (narrowing_total (.Run exRunInstr)).2.2.1 exRunInstr rfl

/-! ### Span tracking through the walks -/

theorem breakableStep_components (b : BreakableString) (c : Pair) :
    ∃ x, (breakableStep b c).components = b.components ++ [x] ∧
      x.span = c.span := by
  unfold breakableStep
  cases c.as_rule <;>
    exact ⟨_, rfl, rfl⟩

theorem breakableStep_foldl_spans (cs : List Pair) (b0 : BreakableString) :
    ∀ frag ∈ (cs.foldl breakableStep b0).components,
      frag ∈ b0.components ∨ ∃ c ∈ cs, frag.span = c.span := by
  induction cs generalizing b0 with
  | nil => exact fun frag hf => Or.inl hf
  | cons c cs ih =>
    intro frag hf
    rcases ih (breakableStep b0 c) frag hf with hin | ⟨c2, hc2, hsp⟩
    · obtain ⟨x, hx, hxs⟩ := breakableStep_components b0 c
      rw [hx] at hin
      rcases List.mem_append.mp hin with hin | hin
      · exact Or.inl hin
      · simp only [List.mem_singleton] at hin
        subst hin
        exact Or.inr ⟨c, by simp, hxs⟩
    · exact Or.inr ⟨c2, by simp [hc2], hsp⟩

theorem copyStandardFields_spans {children : List Pair} {flags0 flags : List CopyFlag}
    {paths0 paths : List SpannedString}
    (h : copyStandardFields children flags0 paths0 = .ok (flags, paths)) :
    (∀ f ∈ flags, f ∈ flags0 ∨ ∃ c ∈ children, f.span = c.span) ∧
    (∀ p ∈ paths, p ∈ paths0 ∨ ∃ c ∈ children, p.span = c.span) := by
  induction children generalizing flags0 paths0 with
  | nil =>
    simp only [copyStandardFields, Except.ok.injEq, Prod.mk.injEq] at h
    obtain ⟨h1, h2⟩ := h
    subst h1; subst h2
    exact ⟨fun f hf => Or.inl hf, fun p hp => Or.inl hp⟩
  | cons c cs ih =>
    rw [copyStandardFields] at h
    split at h
    · split at h
      · rename_i f hf
        obtain ⟨ihf, ihp⟩ := ih h
        constructor
        · intro g hg
          rcases ihf g hg with hin | ⟨c2, hc2, hsp⟩
          · rcases List.mem_append.mp hin with hin | hin
            · exact Or.inl hin
            · simp only [List.mem_singleton] at hin
              subst hin
              exact Or.inr ⟨c, by simp, copyFlag_span_of_from_record hf⟩
          · exact Or.inr ⟨c2, by simp [hc2], hsp⟩
        · intro p hp
          rcases ihp p hp with hin | ⟨c2, hc2, hsp⟩
          · exact Or.inl hin
          · exact Or.inr ⟨c2, by simp [hc2], hsp⟩
      · exact absurd h (by simp)
    · rw [parse_string] at h
      obtain ⟨ihf, ihp⟩ := ih h
      constructor
      · intro g hg
        rcases ihf g hg with hin | ⟨c2, hc2, hsp⟩
        · exact Or.inl hin
        · exact Or.inr ⟨c2, by simp [hc2], hsp⟩
      · intro p hp
        rcases ihp p hp with hin | ⟨c2, hc2, hsp⟩
        · rcases List.mem_append.mp hin with hin | hin
          · exact Or.inl hin
          · simp only [List.mem_singleton] at hin
            subst hin
            exact Or.inr ⟨c, by simp, rfl⟩
        · exact Or.inr ⟨c2, by simp [hc2], hsp⟩
    · obtain ⟨ihf, ihp⟩ := ih h
      constructor
      · intro g hg
        rcases ihf g hg with hin | ⟨c2, hc2, hsp⟩
        · exact Or.inl hin
        · exact Or.inr ⟨c2, by simp [hc2], hsp⟩
      · intro p hp
        rcases ihp p hp with hin | ⟨c2, hc2, hsp⟩
        · exact Or.inl hin
        · exact Or.inr ⟨c2, by simp [hc2], hsp⟩
    · exact absurd h (by simp)

theorem copyHeredocFields_spans {children : List Pair} {flags0 flags : List CopyFlag}
    {d0 d : SpannedString} {srcs0 srcs : List SpannedString}
    (h : copyHeredocFields children flags0 d0 srcs0 = .ok (flags, d, srcs)) :
    (∀ f ∈ flags, f ∈ flags0 ∨ ∃ c ∈ children, f.span = c.span) ∧
    (d = d0 ∨ ∃ c ∈ children, d.span = c.span) ∧
    (∀ s ∈ srcs, s ∈ srcs0 ∨ ∃ c ∈ children, s.span = c.span) := by
  induction children generalizing flags0 d0 srcs0 with
  | nil =>
    simp only [copyHeredocFields, Except.ok.injEq, Prod.mk.injEq] at h
    obtain ⟨h1, h2, h3⟩ := h
    subst h1; subst h2; subst h3
    exact ⟨fun f hf => Or.inl hf, Or.inl rfl, fun s hs => Or.inl hs⟩
  | cons c cs ih =>
    rw [copyHeredocFields] at h
    split at h
    · split at h
      · rename_i f hf
        obtain ⟨ihf, ihd, ihs⟩ := ih h
        refine ⟨?_, ?_, ?_⟩
        · intro g hg
          rcases ihf g hg with hin | ⟨c2, hc2, hsp⟩
          · rcases List.mem_append.mp hin with hin | hin
            · exact Or.inl hin
            · simp only [List.mem_singleton] at hin
              subst hin
              exact Or.inr ⟨c, by simp, copyFlag_span_of_from_record hf⟩
          · exact Or.inr ⟨c2, by simp [hc2], hsp⟩
        · rcases ihd with hin | ⟨c2, hc2, hsp⟩
          · exact Or.inl hin
          · exact Or.inr ⟨c2, by simp [hc2], hsp⟩
        · intro s hs
          rcases ihs s hs with hin | ⟨c2, hc2, hsp⟩
          · exact Or.inl hin
          · exact Or.inr ⟨c2, by simp [hc2], hsp⟩
      · exact absurd h (by simp)
    · rw [parse_string] at h
      obtain ⟨ihf, ihd, ihs⟩ := ih h
      refine ⟨?_, ?_, ?_⟩
      · intro g hg
        rcases ihf g hg with hin | ⟨c2, hc2, hsp⟩
        · exact Or.inl hin
        · exact Or.inr ⟨c2, by simp [hc2], hsp⟩
      · rcases ihd with hin | ⟨c2, hc2, hsp⟩
        · subst hin
          exact Or.inr ⟨c, by simp, rfl⟩
        · exact Or.inr ⟨c2, by simp [hc2], hsp⟩
      · intro s hs
        rcases ihs s hs with hin | ⟨c2, hc2, hsp⟩
        · exact Or.inl hin
        · exact Or.inr ⟨c2, by simp [hc2], hsp⟩
    · rw [parse_string] at h
      obtain ⟨ihf, ihd, ihs⟩ := ih h
      refine ⟨?_, ?_, ?_⟩
      · intro g hg
        rcases ihf g hg with hin | ⟨c2, hc2, hsp⟩
        · exact Or.inl hin
        · exact Or.inr ⟨c2, by simp [hc2], hsp⟩
      · rcases ihd with hin | ⟨c2, hc2, hsp⟩
        · exact Or.inl hin
        · exact Or.inr ⟨c2, by simp [hc2], hsp⟩
      · intro s hs
        rcases ihs s hs with hin | ⟨c2, hc2, hsp⟩
        · rcases List.mem_append.mp hin with hin | hin
          · exact Or.inl hin
          · simp only [List.mem_singleton] at hin
            subst hin
            exact Or.inr ⟨c, by simp, rfl⟩
        · exact Or.inr ⟨c2, by simp [hc2], hsp⟩
    · exact absurd h (by simp)

theorem runFields_spans {children : List Pair} {opts0 opts : List RunOption}
    {f? : Option Pair}
    (h : runFields children opts0 = .ok (opts, f?)) :
    (∀ o ∈ opts, o ∈ opts0 ∨ ∃ c ∈ children, o.span = c.span) ∧
    (∀ f, f? = some f → f ∈ children) := by
  induction children generalizing opts0 with
  | nil =>
    simp only [runFields, Except.ok.injEq, Prod.mk.injEq] at h
    obtain ⟨h1, h2⟩ := h
    subst h1; subst h2
    exact ⟨fun o ho => Or.inl ho, fun f hf => by simp at hf⟩
  | cons c cs ih =>
    rw [runFields] at h
    split at h
    · split at h
      · rename_i o ho
        obtain ⟨iho, ihfm⟩ := ih h
        constructor
        · intro g hg
          rcases iho g hg with hin | ⟨c2, hc2, hsp⟩
          · rcases List.mem_append.mp hin with hin | hin
            · exact Or.inl hin
            · simp only [List.mem_singleton] at hin
              subst hin
              exact Or.inr ⟨c, by simp, runOption_span_of_from_record ho⟩
          · exact Or.inr ⟨c2, by simp [hc2], hsp⟩
        · intro f hf
          exact List.mem_cons_of_mem c (ihfm f hf)
      · exact absurd h (by simp)
    · simp only [Except.ok.injEq, Prod.mk.injEq] at h
      obtain ⟨h1, h2⟩ := h
      subst h1
      refine ⟨fun o ho => Or.inl ho, ?_⟩
      intro f hf
      rw [← h2] at hf
      simp only [Option.some.injEq] at hf
      subst hf
      exact List.mem_cons_self c cs
    · simp only [Except.ok.injEq, Prod.mk.injEq] at h
      obtain ⟨h1, h2⟩ := h
      subst h1
      refine ⟨fun o ho => Or.inl ho, ?_⟩
      intro f hf
      rw [← h2] at hf
      simp only [Option.some.injEq] at hf
      subst hf
      exact List.mem_cons_self c cs
    · obtain ⟨iho, ihfm⟩ := ih h
      constructor
      · intro g hg
        rcases iho g hg with hin | ⟨c2, hc2, hsp⟩
        · exact Or.inl hin
        · exact Or.inr ⟨c2, by simp [hc2], hsp⟩
      · intro f hf
        exact List.mem_cons_of_mem c (ihfm f hf)
    · exact absurd h (by simp)

/-- C4 (amended): for every well-formed record, a successfully assembled
copy or run instruction contains within its own span the span of every
enumerated child field — flags, options, sources, breakable fragments,
heredoc and exec elements; the destination of a copy is likewise contained
unless it is the sentinel empty destination left in place by a heredoc-form
copy that has no destination-path child. -/
theorem span_containment_amended (record : Pair) (hwf : record.WF) :
    (∀ ci, CopyInstruction.from_record record = .ok ci →
      (∀ f ∈ ci.flags, ci.span.contains f.span) ∧
      (∀ s ∈ ci.sources, ci.span.contains s.str.span) ∧
      (ci.span.contains ci.destination.span ∨ ci.destination = emptyDestination)) ∧
    (∀ ri, RunInstruction.from_record record = .ok ri →
      (∀ o ∈ ri.options, ri.span.contains o.span) ∧
      (∀ args, ri.expr = .Exec args → ∀ e ∈ args.elements, ri.span.contains e.span) ∧
      (∀ b, ri.expr = .Shell b → ∀ frag ∈ b.components, ri.span.contains frag.span) ∧
      (∀ b hd, ri.expr = .ShellWithHeredoc b hd →
        (∀ frag ∈ b.components, ri.span.contains frag.span) ∧
        ri.span.contains hd.span)) := by
  obtain ⟨rr, rsp, rtx, rcs⟩ := record
  constructor
  · intro ci hci
    cases rcs with
    | nil => exact absurd hci (by simp [CopyInstruction.from_record, Pair.into_inner])
    | cons field rest =>
      have hfwf : field.WF := hwf.children_wf field (by simp [Pair.into_inner])
      have hfcont : rsp.contains field.span :=
        hwf.children_contains field (by simp [Pair.into_inner])
      have hchild : ∀ c ∈ field.into_inner, rsp.contains c.span := fun c hc =>
        Span.contains_trans hfcont (hfwf.children_contains c hc)
      rw [CopyInstruction.from_record,
        show Pair.into_inner (Pair.mk rr rsp rtx (field :: rest)) =
          field :: rest from rfl] at hci
      simp only [] at hci
      split at hci
      · cases hw : copyStandardFields field.into_inner [] [] with
        | error e => rw [hw] at hci; exact absurd hci (by simp)
        | ok fp =>
          obtain ⟨flags, paths⟩ := fp
          rw [hw] at hci
          simp only [] at hci
          by_cases hlen : 2 ≤ paths.length
          · rw [dif_pos hlen] at hci
            obtain ⟨hfspans, hpspans⟩ := copyStandardFields_spans hw
            have hpcont : ∀ p ∈ paths, rsp.contains p.span := by
              intro p hp
              rcases hpspans p hp with hin | ⟨c, hc, hsp⟩
              · simp at hin
              · rw [hsp]; exact hchild c hc
            obtain rfl := Except.ok.inj hci
            refine ⟨?_, ?_, ?_⟩
            · intro f hf
              rcases hfspans f hf with hin | ⟨c, hc, hsp⟩
              · simp at hin
              · show rsp.contains f.span
                rw [hsp]; exact hchild c hc
            · intro s hs
              obtain ⟨p, hp, rfl⟩ := List.mem_map.mp hs
              exact hpcont p ((List.dropLast_sublist paths).subset hp)
            · exact Or.inl (hpcont _ (List.getLast_mem _))
          · rw [dif_neg hlen] at hci; exact absurd hci (by simp)
      · cases hw : copyHeredocFields field.into_inner [] emptyDestination [] with
        | error e => rw [hw] at hci; exact absurd hci (by simp)
        | ok fp =>
          obtain ⟨flags, d, srcs⟩ := fp
          rw [hw] at hci
          simp only [] at hci
          by_cases hlen : 1 ≤ srcs.length
          · rw [if_pos hlen] at hci
            obtain ⟨hfspans, hdspan, hsspans⟩ := copyHeredocFields_spans hw
            obtain rfl := Except.ok.inj hci
            refine ⟨?_, ?_, ?_⟩
            · intro f hf
              rcases hfspans f hf with hin | ⟨c, hc, hsp⟩
              · simp at hin
              · show rsp.contains f.span
                rw [hsp]; exact hchild c hc
            · intro s hs
              obtain ⟨p, hp, rfl⟩ := List.mem_map.mp hs
              rcases hsspans p hp with hin | ⟨c, hc, hsp⟩
              · simp at hin
              · show rsp.contains p.span
                rw [hsp]; exact hchild c hc
            · rcases hdspan with hd0 | ⟨c, hc, hsp⟩
              · exact Or.inr hd0
              · refine Or.inl ?_
                show rsp.contains d.span
                rw [hsp]; exact hchild c hc
          · rw [if_neg hlen] at hci; exact absurd hci (by simp)
      · exact absurd hci (by simp)
  · intro ri hri
    rw [RunInstruction.from_record,
      show Pair.into_inner (Pair.mk rr rsp rtx rcs) = rcs from rfl] at hri
    cases hw : runFields rcs [] with
    | error e => rw [hw] at hri; exact absurd hri (by simp)
    | ok p =>
      obtain ⟨opts, f?⟩ := p
      rw [hw] at hri
      simp only [] at hri
      obtain ⟨hospans, hfmem⟩ := runFields_spans hw
      have hocont : ∀ o ∈ opts, rsp.contains o.span := by
        intro o ho
        rcases hospans o ho with hin | ⟨c, hc, hsp⟩
        · simp at hin
        · rw [hsp]
          exact hwf.children_contains c (by simpa [Pair.into_inner] using hc)
      cases f? with
      | none => exact absurd hri (by simp)
      | some field =>
        simp only [] at hri
        have hfield_mem : field ∈ rcs := hfmem field rfl
        have hfwf : field.WF :=
          hwf.children_wf field (by simpa [Pair.into_inner] using hfield_mem)
        have hfcont : rsp.contains field.span :=
          hwf.children_contains field (by simpa [Pair.into_inner] using hfield_mem)
        have hchild : ∀ c ∈ field.into_inner, rsp.contains c.span := fun c hc =>
          Span.contains_trans hfcont (hfwf.children_contains c hc)
        split at hri
        · rw [parse_string_array] at hri
          simp only [] at hri
          obtain rfl := Except.ok.inj hri
          refine ⟨fun o ho => hocont o ho, ?_, ?_, ?_⟩
          · intro args heq
            obtain rfl := ShellOrExecExpr.Exec.inj heq
            intro e he
            obtain ⟨c, hc, rfl⟩ := List.mem_map.mp he
            exact hchild c hc
          · intro b heq; exact absurd heq (by simp)
          · intro b hd heq; exact absurd heq (by simp)
        · cases hin : field.into_inner with
          | nil => rw [hin] at hri; exact absurd hri (by simp)
          | cons first rest2 =>
            rw [hin] at hri
            simp only [] at hri
            have hfirst_mem : first ∈ field.into_inner := by rw [hin]; simp
            have hfirst_cont : rsp.contains first.span := hchild first hfirst_mem
            have hfirstwf : first.WF := hfwf.children_wf first hfirst_mem
            have hfragcont : ∀ frag ∈
                (first.into_inner.foldl breakableStep
                  (BreakableString.new first.span)).components,
                rsp.contains frag.span := by
              intro frag hfrag
              rcases breakableStep_foldl_spans first.into_inner
                  (BreakableString.new first.span) frag hfrag with hin2 | ⟨c, hc, hsp⟩
              · simp [BreakableString.new] at hin2
              · rw [hsp]
                exact Span.contains_trans hfirst_cont
                  (hfirstwf.children_contains c hc)
            split at hri
            · rw [parse_heredoc] at hri
              simp only [] at hri
              obtain rfl := Except.ok.inj hri
              refine ⟨fun o ho => hocont o ho, ?_, ?_, ?_⟩
              · intro args heq; exact absurd heq (by simp)
              · intro b heq; exact absurd heq (by simp)
              · intro b hd heq
                obtain ⟨rfl, rfl⟩ := ShellOrExecExpr.ShellWithHeredoc.inj heq
                constructor
                · intro frag hfrag
                  simp [BreakableString.new] at hfrag
                · exact hfirst_cont
            · rw [parse_any_breakable] at hri
              simp only [] at hri
              cases rest2 with
              | nil =>
                simp only [] at hri
                obtain rfl := Except.ok.inj hri
                refine ⟨fun o ho => hocont o ho, ?_, ?_, ?_⟩
                · intro args heq; exact absurd heq (by simp)
                · intro b heq
                  obtain rfl := ShellOrExecExpr.Shell.inj heq
                  exact hfragcont
                · intro b hd heq; exact absurd heq (by simp)
              | cons hdp t =>
                simp only [] at hri
                rw [parse_heredoc] at hri
                simp only [] at hri
                obtain rfl := Except.ok.inj hri
                have hdp_mem : hdp ∈ field.into_inner := by rw [hin]; simp
                refine ⟨fun o ho => hocont o ho, ?_, ?_, ?_⟩
                · intro args heq; exact absurd heq (by simp)
                · intro b heq; exact absurd heq (by simp)
                · intro b hd heq
                  obtain ⟨rfl, rfl⟩ := ShellOrExecExpr.ShellWithHeredoc.inj heq
                  exact ⟨hfragcont, hchild hdp hdp_mem⟩
            · exact absurd hri (by simp)
        · exact absurd hri (by simp)

/-- C4 counterexample: a well-formed heredoc-form copy record starting at
offset 12 with one heredoc body and no destination-path child assembles
successfully, yet the span of its destination child field — the sentinel
`{start := 0, end := 0}` — is not contained in the instruction's span. -/
theorem span_containment_counterexample :
    Pair.WF recCopyHeredocNoDest ∧
    CopyInstruction.from_record recCopyHeredocNoDest =
      .ok ⟨Span.new 12 40, [], [.FileContents ⟨Span.new 23 29, "hello\n"⟩],
           ⟨Span.new 0 0, ""⟩⟩ ∧
    ¬ (Span.new 12 40).contains (Span.new 0 0) := by
  refine ⟨?_, rfl, by decide⟩
  refine Pair.WF.mk _ _ _ _ (by decide) ?_
  intro c hc
  simp only [List.mem_singleton] at hc
  subst hc
  refine Pair.WF.mk _ _ _ _ (by decide) ?_
  intro c hc
  simp only [List.mem_singleton] at hc
  subst hc
  exact Pair.WF.leaf _ _ _

/-- Witness for C4 (amended): on the well-formed record for `copy foo bar`
the amended containment theorem yields that the destination span `(9, 12)`
lies inside the instruction span `(0, 12)`. -/
theorem span_containment_amended_witness :
    (Span.new 0 12).contains (Span.new 9 12) := by
  have hwf : Pair.WF recCopyBasic := by
    refine Pair.WF.mk _ _ _ _ (by decide) ?_
    intro c hc
    simp only [List.mem_singleton] at hc
    subst hc
    refine Pair.WF.mk _ _ _ _ (by decide) ?_
    intro c hc
    simp only [List.mem_cons, List.mem_singleton, List.not_mem_nil, or_false] at hc
    rcases hc with hc | hc <;> subst hc <;> exact Pair.WF.leaf _ _ _
  have h := (span_containment_amended recCopyBasic hwf).1
    ⟨Span.new 0 12, [], [.FileName ⟨Span.new 5 8, "foo"⟩], ⟨Span.new 9 12, "bar"⟩⟩
    rfl
  rcases h.2.2 with hc | hc
  · exact hc
  · exact absurd hc (by decide)
